import Mathlib

/-!
Verification of the forward-only, content-integrity-checked schema migration
engine of the `cdk-typescript-lib` repository.

The shallow embedding below translates:
* `src/migration/migration-list.ts` (the append-only migration catalog and its
  order validation) — `Migration`, `listAppend`;
* `PostgresListMigrationProcessor.migrate` (the reconciliation pass:
  history validation, purge of failed attempts, sequential application with
  fail-fast) — `checkHistory`, `applySteps`, `migrate`;
* `migrationHandler` of `src/migration/migration-handler.ts` (the
  CloudFormation custom-resource adapter) — `migrationHandler`.

The database driver is abstracted as in the spec: executing a migration
statement is an oracle `String → Except String Unit`; the migration log table
is a list of `LogEntry`, with the `ORDER BY creation_order` of the history
read modelled by an insertion sort on `creationOrder`; the server-side `NOW`
timestamp is a `Nat` parameter of the pass.
-/

/-! ### Substring containment

Helper predicate used to state that an error message "mentions" a fragment. -/
def leadMatch : List Char → List Char → Bool
  | [], _ => true
  | _ :: _, [] => false
  | a :: as, b :: bs => a == b && leadMatch as bs

def subSearch (needle : List Char) : List Char → Bool
  | [] => needle.isEmpty
  | b :: bs => leadMatch needle (b :: bs) || subSearch needle bs

/-- The string `needle` occurs (contiguously) inside `hay`. -/
def strContains (hay needle : String) : Prop := subSearch needle.data hay.data = true

instance (hay needle : String) : Decidable (strContains hay needle) :=
  inferInstanceAs (Decidable (subSearch needle.data hay.data = true))

/-! ### Migration catalog (`src/migration/migration-list.ts`) -/

/-- One migration step: `Migration` of `migration-list.ts`. -/
structure Migration where
  order : Int
  description : String
  query : String
deriving DecidableEq, Repr

/-- The validating append of `internalMigrationList` (`migration-list.ts`,
the `migrate` method attached to the list): rejects a non-positive order,
then rejects an order not strictly greater than the last appended one,
otherwise returns the list with the step appended. Errors are modelled as
`Except.error` carrying the thrown message. -/
def listAppend (migrations : List Migration) (migration : Migration) :
    Except String (List Migration) :=
  if migration.order ≤ 0 then
    .error "Migration order number must be greater than zero"
  else
    match migrations.getLast? with
    | some lastM =>
      if migration.order ≤ lastM.order then
        .error ("Migration orders must grow, migration " ++ toString migration.order
          ++ " cannot go after migration " ++ toString lastM.order)
      else .ok (migrations ++ [migration])
    | none => .ok (migrations ++ [migration])

/-! ### Migration log and reconciliation pass (`PostgresListMigrationProcessor`) -/

/-- One row of the migration log table, per `databaseMigrationSchema`. -/
structure LogEntry where
  creationOrder : Int
  description : String
  runTs : Nat
  queryExecuted : String
  successful : Bool
  message : String
deriving DecidableEq, Repr

/-- Result of a reconciliation pass: `MigrationResultSuccess` or
`MigrationResultFailure` of `postgres-migration-handler.ts`. -/
inductive MigrationResult where
  | success (lastSuccessful : Int)
  | failure (lastSuccessful : Int) (errorMessage : String)
deriving DecidableEq, Repr

/-- Comparison on `creationOrder`, the key of the `ORDER BY creation_order`
clause of the history read in `migrate`. -/
def entryLe (a b : LogEntry) : Prop := a.creationOrder ≤ b.creationOrder

instance : DecidableRel entryLe := fun a b =>
  inferInstanceAs (Decidable (a.creationOrder ≤ b.creationOrder))

instance : IsTotal LogEntry entryLe := ⟨fun _ _ => Int.le_total _ _⟩

instance : IsTrans LogEntry entryLe := ⟨fun _ _ _ h h2 => Int.le_trans h h2⟩

/-- The history read `db.select(databaseMigrationSchema, "... ORDER BY
creation_order")`: the stored rows, sorted by `creationOrder`. -/
def sortByCreationOrder (store : List LogEntry) : List LogEntry :=
  List.insertionSort entryLe store

/-- Message thrown when a successfully applied migration is missing from the
list (`migrate`, the first `throw`). -/
def notFoundMessage (migration : LogEntry) : String :=
  "The migration list must be immutable. The successful migration number "
    ++ toString migration.creationOrder
    ++ " not found in your list. The original query was \""
    ++ migration.queryExecuted ++ ", executed on " ++ toString migration.runTs ++ "\""

/-- Message thrown when a successfully applied migration's query text was
changed in the list (`migrate`, the second `throw`). -/
def modifiedMessage (migration : LogEntry) : String :=
  "The migration list must be immutable. The successful migration number "
    ++ toString migration.creationOrder
    ++ " the query text modified. The original query was \""
    ++ migration.queryExecuted ++ ", executed on " ++ toString migration.runTs ++ "\""

/-- The `actualMigrations.forEach` validation loop of `migrate`: walks the
sorted history, skips unsuccessful rows, throws on a row missing from the
list or with modified query text, and tracks `lastSuccessful`. -/
def checkHistory (migrationList : List Migration) :
    List LogEntry → Int → Except String Int
  | [], lastSuccessful => .ok lastSuccessful
  | migration :: rest, lastSuccessful =>
    if !migration.successful then checkHistory migrationList rest lastSuccessful
    else
      match migrationList.find?
          (fun actualMigration => actualMigration.order == migration.creationOrder) with
      | none => .error (notFoundMessage migration)
      | some existingMigration =>
        if existingMigration.query ≠ migration.queryExecuted then
          .error (modifiedMessage migration)
        else checkHistory migrationList rest migration.creationOrder

/-- Row inserted after a successful step execution. -/
def successEntry (now : Nat) (migration : Migration) : LogEntry :=
  ⟨migration.order, migration.description, now, migration.query, true, ""⟩

/-- Row inserted after a failed step execution, carrying the error message. -/
def failureEntry (now : Nat) (migration : Migration) (msg : String) : LogEntry :=
  ⟨migration.order, migration.description, now, migration.query, false, msg⟩

/-- State threaded through the application loop of `migrate`: the log table
contents, the migration statements passed to `db.query` so far, and the
`lastSuccessful` / `hasError` / `errorMessage` locals. -/
structure ApplyState where
  store : List LogEntry
  executed : List String
  lastSuccessful : Int
  hasError : Bool
  errorMessage : String
deriving DecidableEq, Repr

/-- The `for (const migration of newMigrationsList)` loop of `migrate`:
execute each statement in order; on success insert a successful row and
advance `lastSuccessful`; on failure insert a failed row with the error
message and `break`. -/
def applySteps (exec : String → Except String Unit) (now : Nat) :
    List Migration → ApplyState → ApplyState
  | [], st => st
  | migration :: rest, st =>
    match exec migration.query with
    | .ok _ =>
      applySteps exec now rest
        ⟨st.store ++ [successEntry now migration], st.executed ++ [migration.query],
          migration.order, st.hasError, st.errorMessage⟩
    | .error msg =>
      ⟨st.store ++ [failureEntry now migration msg], st.executed ++ [migration.query],
        st.lastSuccessful, true, msg⟩

/-- Observable outcome of a reconciliation pass: final log table contents,
the migration statements executed, and the returned result. -/
structure MigrateOutcome where
  store : List LogEntry
  executed : List String
  result : MigrationResult
deriving DecidableEq, Repr

/-- The whole `PostgresListMigrationProcessor.migrate` pass: read the history
sorted by `creationOrder`, validate it against the migration list (throwing,
i.e. `Except.error`, on tampering), delete every row with `successful =
false`, filter the list to the steps past `lastSuccessful`, and apply them
sequentially, returning a failure result on the first error. The database
driver is the oracle `exec`; `now` is the server-side `NOW` timestamp of this
pass. -/
def migrate (migrationList : List Migration) (exec : String → Except String Unit)
    (now : Nat) (store : List LogEntry) : Except String MigrateOutcome :=
  let actualMigrations := sortByCreationOrder store
  match checkHistory migrationList actualMigrations (-1) with
  | .error e => .error e
  | .ok lastSuccessful =>
    let purged := store.filter (fun migration => migration.successful)
    let newMigrationsList :=
      migrationList.filter (fun migration => lastSuccessful < migration.order)
    let final := applySteps exec now newMigrationsList ⟨purged, [], lastSuccessful, false, ""⟩
    if final.hasError then
      .ok ⟨final.store, final.executed, .failure final.lastSuccessful final.errorMessage⟩
    else
      .ok ⟨final.store, final.executed, .success final.lastSuccessful⟩

/-- Modelled from the spec: the current `postgres-list-migration-processor.ts`
is absent from the sources (only its caller
`postgres-list-migration-handler.ts` and the earlier processor version are
present); per the spec it accepts a configuration flag
(`allowMigrationContentsChanges`) that permits catalog content changes
without triggering the content-mutation integrity check. This repeats
`checkHistory` with the modified-text check disabled when the flag is set. -/
def checkHistoryFlag (allowMigrationContentsChanges : Bool)
    (migrationList : List Migration) : List LogEntry → Int → Except String Int
  | [], lastSuccessful => .ok lastSuccessful
  | migration :: rest, lastSuccessful =>
    if !migration.successful then
      checkHistoryFlag allowMigrationContentsChanges migrationList rest lastSuccessful
    else
      match migrationList.find?
          (fun actualMigration => actualMigration.order == migration.creationOrder) with
      | none => .error (notFoundMessage migration)
      | some existingMigration =>
        if existingMigration.query ≠ migration.queryExecuted
            ∧ allowMigrationContentsChanges = false then
          .error (modifiedMessage migration)
        else
          checkHistoryFlag allowMigrationContentsChanges migrationList rest
            migration.creationOrder

/-- Modelled from the spec: `migrate` of the flag-accepting processor
(missing from the sources, see `checkHistoryFlag`); identical to `migrate`
except that history validation honours `allowMigrationContentsChanges`. -/
def migrateFlag (allowMigrationContentsChanges : Bool)
    (migrationList : List Migration) (exec : String → Except String Unit)
    (now : Nat) (store : List LogEntry) : Except String MigrateOutcome :=
  let actualMigrations := sortByCreationOrder store
  match checkHistoryFlag allowMigrationContentsChanges migrationList actualMigrations (-1) with
  | .error e => .error e
  | .ok lastSuccessful =>
    let purged := store.filter (fun migration => migration.successful)
    let newMigrationsList :=
      migrationList.filter (fun migration => lastSuccessful < migration.order)
    let final := applySteps exec now newMigrationsList ⟨purged, [], lastSuccessful, false, ""⟩
    if final.hasError then
      .ok ⟨final.store, final.executed, .failure final.lastSuccessful final.errorMessage⟩
    else
      .ok ⟨final.store, final.executed, .success final.lastSuccessful⟩

/-- The `lastSuccessful` value tracked by the validation loop: the
`creationOrder` of the last successful row, or the initial value. -/
def histLast (l : List LogEntry) (init : Int) : Int :=
  l.foldl (fun acc e => if e.successful then e.creationOrder else acc) init

/-- A log row passes the validation loop's checks: its order is found in the
migration list and the found step's query text matches the recorded one. -/
def Validates (migrationList : List Migration) (e : LogEntry) : Prop :=
  ∃ m, migrationList.find? (fun am => am.order == e.creationOrder) = some m ∧
    m.query = e.queryExecuted

/-- Invariant of a catalog built through `listAppend`: strictly increasing,
positive orders. -/
def ValidCatalog (L : List Migration) : Prop :=
  List.Pairwise (fun a b => a.order < b.order) L ∧ ∀ m ∈ L, 0 < m.order

/-- Order of the last step of a list, or a default: the value of
`lastSuccessful` after successfully applying all the listed steps. -/
def lastOrd (l : List Migration) (dflt : Int) : Int :=
  match l.getLast? with
  | some m => m.order
  | none => dflt

/-! ### Invocation adapter (`src/migration/migration-handler.ts`) -/

/-- The fields of `CloudFormationCustomResourceEvent` the handler reads. -/
structure CfEvent where
  RequestType : String
  PhysicalResourceId : String
  RequestId : String
  StackId : String
  LogicalResourceId : String
deriving DecidableEq, Repr

/-- The `Data` payload of a `CdkCustomResourceResponse`. -/
structure DataResult where
  Result : String
deriving DecidableEq, Repr

/-- The response shape built by `cdkResponse`. -/
structure CdkResponse where
  Status : String
  PhysicalResourceId : String
  Data : DataResult
  StackId : String
  RequestId : String
  LogicalResourceId : String
deriving DecidableEq, Repr

/-- The `cdkResponse` helper of `migration-handler.ts`. -/
def cdkResponse (status : String) (result : String) (physicalResourceId : String)
    (event : CfEvent) : CdkResponse :=
  ⟨status, physicalResourceId, ⟨result⟩, event.StackId, event.RequestId,
    event.LogicalResourceId⟩

def failureResponse (response : String) (physicalResourceId : String)
    (event : CfEvent) : CdkResponse :=
  cdkResponse "FAILED" response physicalResourceId event

def successResponse (response : String) (physicalResourceId : String)
    (event : CfEvent) : CdkResponse :=
  cdkResponse "SUCCESS" response physicalResourceId event

/-- The `migrationUpdate` helper: maps the processor's result to the
response envelope. -/
def migrationUpdate (result : MigrationResult) (eventResourceId : String)
    (event : CfEvent) : CdkResponse :=
  match result with
  | .failure lastSuccessful errorMessage =>
    failureResponse ("Migration error: " ++ errorMessage ++ ", last successful: "
      ++ toString lastSuccessful) eventResourceId event
  | .success lastSuccessful =>
    successResponse ("Last migration: " ++ toString lastSuccessful) eventResourceId event

/-- The `migrationHandler` adapter. Effects are oracles: `connectR` models
`connectPostgresDb` (an `error` is a thrown exception), `initR` models
`migrationProcessor.initialize` (run only on a "Create" event), `migrateR`
models `migrationProcessor.migrate` (`error` = rejected promise, `ok` = the
returned result). The `client.end()` of the `finally` block has no
observable effect in this model. -/
def migrationHandler (connectR : Except String Unit) (initR : Except String Unit)
    (migrateR : Except String MigrationResult) (event : CfEvent) : CdkResponse :=
  if event.RequestType == "Delete" then
    successResponse "This is forward-only migration, delete event ignored"
      event.PhysicalResourceId event
  else
    let body : Except String CdkResponse := do
      connectR
      let resourceId ←
        if event.RequestType == "Create" then do
          initR
          pure ("custom-" ++ event.RequestId)
        else pure event.PhysicalResourceId
      let result ← migrateR
      pure (migrationUpdate result resourceId event)
    match body with
    | .ok response => response
    | .error msg =>
      failureResponse ("Migration exception: " ++ msg)
        (if event.RequestType == "Create" then "custom-" ++ event.RequestId
         else event.PhysicalResourceId) event

theorem leadMatch_append (n t : List Char) : leadMatch n (n ++ t) = true := by
  induction n with
  | nil => rfl
  | cons a as ih => simp [leadMatch, ih]

theorem subSearch_of_append (s n t : List Char) : subSearch n (s ++ (n ++ t)) = true := by
  induction s with
  | nil =>
    cases h : n ++ t with
    | nil =>
      have : n = [] := (List.append_eq_nil.mp h).1
      simp [this, subSearch]
    | cons b bs =>
      show (leadMatch n (b :: bs) || subSearch n bs) = true
      rw [← h, leadMatch_append, Bool.true_or]
  | cons a as ih =>
    simp [subSearch, ih]

theorem string_data_append (a b : String) : (a ++ b).data = a.data ++ b.data := rfl

theorem strContains_append (a b c : String) : strContains (a ++ b ++ c) b := by
  show subSearch b.data (a ++ b ++ c).data = true
  rw [string_data_append, string_data_append, List.append_assoc]
  exact subSearch_of_append a.data b.data c.data

/-- Claim C7 — Catalog append validation: a step with `order ≤ 0` is rejected
with a message containing "order number must be greater than zero"; otherwise
a step whose order does not exceed the last appended step's order is rejected
with a message containing "orders must grow"; otherwise the append succeeds
and yields the old sequence with the new step at the end. -/
theorem catalog_append_validation (ms : List Migration) (m : Migration) :
    (m.order ≤ 0 →
      ∃ msg, listAppend ms m = .error msg ∧
        strContains msg "order number must be greater than zero") ∧
    (0 < m.order → ∀ lastM, ms.getLast? = some lastM → m.order ≤ lastM.order →
      ∃ msg, listAppend ms m = .error msg ∧ strContains msg "orders must grow") ∧
    (0 < m.order → (∀ lastM, ms.getLast? = some lastM → lastM.order < m.order) →
      listAppend ms m = .ok (ms ++ [m])) := by
  refine ⟨fun h => ?_, fun hpos lastM hlast hle => ?_, fun hpos hgt => ?_⟩
  · refine ⟨"Migration order number must be greater than zero", ?_, ?_⟩
    · simp [listAppend, h]
    · have := strContains_append "" "Migration order number must be greater than zero" ""
      simpa using this
  · refine ⟨"Migration orders must grow, migration " ++ toString m.order
      ++ " cannot go after migration " ++ toString lastM.order, ?_, ?_⟩
    · simp [listAppend, Int.not_le.mpr hpos, hlast, hle]
    · have := strContains_append "Migration " ("orders must grow")
        (", migration " ++ toString m.order ++ " cannot go after migration "
          ++ toString lastM.order)
      simpa [String.append_assoc] using this
  · cases hlast : ms.getLast? with
    | none => simp [listAppend, Int.not_le.mpr hpos, hlast]
    | some lastM =>
      have := hgt lastM hlast
      simp [listAppend, Int.not_le.mpr hpos, hlast, Int.not_le.mpr this]

/-- Witness for C7: concrete instances discharging each hypothesis. -/
theorem catalog_append_validation_witness :
    (∃ msg, listAppend [] ⟨0, "d", "q"⟩ = .error msg ∧
      strContains msg "order number must be greater than zero") ∧
    (∃ msg, listAppend [⟨2, "d", "q"⟩] ⟨1, "e", "r"⟩ = .error msg ∧
      strContains msg "orders must grow") ∧
    listAppend [⟨1, "d", "q"⟩] ⟨2, "e", "r"⟩ = .ok [⟨1, "d", "q"⟩, ⟨2, "e", "r"⟩] := by
  refine ⟨(catalog_append_validation [] ⟨0, "d", "q"⟩).1 (by decide), ?_, ?_⟩
  · exact (catalog_append_validation [⟨2, "d", "q"⟩] ⟨1, "e", "r"⟩).2.1
      (by decide) ⟨2, "d", "q"⟩ (by rfl) (by decide)
  · exact (catalog_append_validation [⟨1, "d", "q"⟩] ⟨2, "e", "r"⟩).2.2
      (by decide) (fun lastM h => by
        simp only [List.getLast?] at h
        cases h
        decide)

/-! ### Helper lemmas about history validation -/
theorem histLast_nil (init : Int) : histLast [] init = init := rfl

theorem histLast_cons (e : LogEntry) (l : List LogEntry) (init : Int) :
    histLast (e :: l) init = histLast l (if e.successful then e.creationOrder else init) := rfl

theorem checkHistory_cons_skip (L : List Migration) (e : LogEntry)
    (rest : List LogEntry) (init : Int) (hs : e.successful = false) :
    checkHistory L (e :: rest) init = checkHistory L rest init := by
  cases e with
  | mk co d ts q succ msg =>
    simp only at hs
    subst hs
    simp [checkHistory]

theorem checkHistory_cons_notFound (L : List Migration) (e : LogEntry)
    (rest : List LogEntry) (init : Int) (hs : e.successful = true)
    (hfind : L.find? (fun am => am.order == e.creationOrder) = none) :
    checkHistory L (e :: rest) init = .error (notFoundMessage e) := by
  cases e with
  | mk co d ts q succ msg =>
    simp only at hs hfind ⊢
    subst hs
    simp [checkHistory, hfind]

theorem checkHistory_cons_found (L : List Migration) (e : LogEntry)
    (rest : List LogEntry) (init : Int) (m : Migration) (hs : e.successful = true)
    (hfind : L.find? (fun am => am.order == e.creationOrder) = some m) :
    checkHistory L (e :: rest) init =
      if m.query ≠ e.queryExecuted then .error (modifiedMessage e)
      else checkHistory L rest e.creationOrder := by
  cases e with
  | mk co d ts q succ msg =>
    simp only at hs hfind ⊢
    subst hs
    simp [checkHistory, hfind]

theorem checkHistory_ok_of_valid (L : List Migration) :
    ∀ (l : List LogEntry) (init : Int),
      (∀ e ∈ l, e.successful = true → Validates L e) →
      checkHistory L l init = .ok (histLast l init) := by
  intro l
  induction l with
  | nil => intro init _; rfl
  | cons e rest ih =>
    intro init hval
    by_cases hs : e.successful = true
    · obtain ⟨m, hfind, hq⟩ := hval e (by simp) hs
      rw [checkHistory_cons_found L e rest init m hs hfind, if_neg (by simp [hq]),
        histLast_cons, if_pos hs]
      exact ih e.creationOrder (fun x hx hsx => hval x (by simp [hx]) hsx)
    · have hs' : e.successful = false := by simpa using hs
      rw [checkHistory_cons_skip L e rest init hs', histLast_cons, if_neg (by simp [hs'])]
      exact ih init (fun x hx hsx => hval x (by simp [hx]) hsx)

theorem checkHistory_ok_val (L : List Migration) :
    ∀ (l : List LogEntry) (init v : Int),
      checkHistory L l init = .ok v → v = histLast l init := by
  intro l
  induction l with
  | nil => intro init v h; simpa [checkHistory, histLast_nil] using h.symm
  | cons e rest ih =>
    intro init v h
    by_cases hs : e.successful = true
    · cases hfind : L.find? (fun am => am.order == e.creationOrder) with
      | none => rw [checkHistory_cons_notFound L e rest init hs hfind] at h; cases h
      | some m =>
        rw [checkHistory_cons_found L e rest init m hs hfind] at h
        by_cases hq : m.query ≠ e.queryExecuted
        · rw [if_pos hq] at h; cases h
        · rw [if_neg hq] at h
          rw [histLast_cons, if_pos hs]
          exact ih e.creationOrder v h
    · have hs' : e.successful = false := by simpa using hs
      rw [checkHistory_cons_skip L e rest init hs'] at h
      rw [histLast_cons, if_neg (by simp [hs'])]
      exact ih init v h

theorem checkHistory_valid_of_ok (L : List Migration) :
    ∀ (l : List LogEntry) (init v : Int),
      checkHistory L l init = .ok v →
      ∀ e ∈ l, e.successful = true → Validates L e := by
  intro l
  induction l with
  | nil => intro init v _ e he; cases he
  | cons x rest ih =>
    intro init v h e he hse
    by_cases hs : x.successful = true
    · cases hfind : L.find? (fun am => am.order == x.creationOrder) with
      | none => rw [checkHistory_cons_notFound L x rest init hs hfind] at h; cases h
      | some m =>
        rw [checkHistory_cons_found L x rest init m hs hfind] at h
        by_cases hq : m.query ≠ x.queryExecuted
        · rw [if_pos hq] at h; cases h
        · rw [if_neg hq] at h
          rcases List.mem_cons.mp he with rfl | hrest
          · exact ⟨m, hfind, by simpa using hq⟩
          · exact ih x.creationOrder v h e hrest hse
    · have hs' : x.successful = false := by simpa using hs
      rw [checkHistory_cons_skip L x rest init hs'] at h
      rcases List.mem_cons.mp he with rfl | hrest
      · rw [hs'] at hse; cases hse
      · exact ih init v h e hrest hse

theorem checkHistory_append (L : List Migration) :
    ∀ (l₁ l₂ : List LogEntry) (init : Int),
      (∀ e ∈ l₁, e.successful = true → Validates L e) →
      checkHistory L (l₁ ++ l₂) init = checkHistory L l₂ (histLast l₁ init) := by
  intro l₁
  induction l₁ with
  | nil => intro l₂ init _; rfl
  | cons e rest ih =>
    intro l₂ init hval
    by_cases hs : e.successful = true
    · obtain ⟨m, hfind, hq⟩ := hval e (by simp) hs
      rw [List.cons_append, checkHistory_cons_found L e (rest ++ l₂) init m hs hfind,
        if_neg (by simp [hq]), histLast_cons, if_pos hs]
      exact ih l₂ e.creationOrder (fun x hx hsx => hval x (by simp [hx]) hsx)
    · have hs' : e.successful = false := by simpa using hs
      rw [List.cons_append, checkHistory_cons_skip L e (rest ++ l₂) init hs',
        histLast_cons, if_neg (by simp [hs'])]
      exact ih l₂ init (fun x hx hsx => hval x (by simp [hx]) hsx)

/-! ### Order lemmas about the sorted history -/
theorem sorted_sortByCreationOrder (l : List LogEntry) :
    List.Sorted entryLe (sortByCreationOrder l) :=
  List.sorted_insertionSort entryLe l

theorem mem_sortByCreationOrder (l : List LogEntry) (x : LogEntry) :
    x ∈ sortByCreationOrder l ↔ x ∈ l :=
  (List.perm_insertionSort entryLe l).mem_iff

theorem histLast_ge_init :
    ∀ (l : List LogEntry) (init : Int), List.Sorted entryLe l →
      (∀ e ∈ l, e.successful = true → init ≤ e.creationOrder) →
      init ≤ histLast l init := by
  intro l
  induction l with
  | nil => intro init _ _; exact le_refl _
  | cons z rest ih =>
    intro init hsort hge
    have hsr : List.Sorted entryLe rest := hsort.of_cons
    have hrel : ∀ y ∈ rest, entryLe z y := List.rel_of_sorted_cons hsort
    rw [histLast_cons]
    by_cases hz : z.successful = true
    · rw [if_pos hz]
      exact le_trans (hge z (by simp) hz)
        (ih z.creationOrder hsr (fun y hy _ => hrel y hy))
    · rw [if_neg hz]
      exact ih init hsr (fun y hy hsy => hge y (by simp [hy]) hsy)

theorem histLast_ub :
    ∀ (l : List LogEntry) (init : Int), List.Sorted entryLe l →
      ∀ e ∈ l, e.successful = true → e.creationOrder ≤ histLast l init := by
  intro l
  induction l with
  | nil => intro init _ e he; cases he
  | cons z rest ih =>
    intro init hsort e he hse
    have hsr : List.Sorted entryLe rest := hsort.of_cons
    have hrel : ∀ y ∈ rest, entryLe z y := List.rel_of_sorted_cons hsort
    rw [histLast_cons]
    rcases List.mem_cons.mp he with rfl | hrest
    · rw [if_pos hse]
      exact histLast_ge_init rest e.creationOrder hsr (fun y hy _ => hrel y hy)
    · exact ih _ hsr e hrest hse

theorem histLast_mem :
    ∀ (l : List LogEntry) (init : Int),
      histLast l init = init ∨
        ∃ e, e ∈ l ∧ e.successful = true ∧ histLast l init = e.creationOrder := by
  intro l
  induction l with
  | nil => intro init; exact Or.inl rfl
  | cons z rest ih =>
    intro init
    rw [histLast_cons]
    by_cases hz : z.successful = true
    · rw [if_pos hz]
      rcases ih z.creationOrder with h | ⟨e, he, hse, hv⟩
      · exact Or.inr ⟨z, by simp, hz, h⟩
      · exact Or.inr ⟨e, by simp [he], hse, hv⟩
    · rw [if_neg hz]
      rcases ih init with h | ⟨e, he, hse, hv⟩
      · exact Or.inl h
      · exact Or.inr ⟨e, by simp [he], hse, hv⟩

/-! ### Catalog order lemmas -/
theorem validCatalog_nil : ValidCatalog [] := ⟨List.Pairwise.nil, fun m hm => by cases hm⟩

theorem getLast?_mem_list {α : Type} :
    ∀ (l : List α) (x : α), l.getLast? = some x → x ∈ l := by
  intro l
  induction l with
  | nil => intro x h; cases h
  | cons a rest ih =>
    intro x h
    cases hr : rest with
    | nil =>
      subst hr
      simp only [List.getLast?_singleton, Option.some.injEq] at h
      simp [h]
    | cons b rest' =>
      subst hr
      rw [List.getLast?_cons_cons] at h
      exact List.mem_cons_of_mem a (ih x h)

theorem pairwise_le_getLast :
    ∀ (L : List Migration), List.Pairwise (fun a b => a.order < b.order) L →
      ∀ m ∈ L, ∀ x, L.getLast? = some x → m.order ≤ x.order := by
  intro L
  induction L with
  | nil => intro _ m hm; cases hm
  | cons a rest ih =>
    intro hp m hm x hx
    rcases List.pairwise_cons.mp hp with ⟨ha, hrest⟩
    cases hr : rest with
    | nil =>
      subst hr
      simp only [List.getLast?_singleton, Option.some.injEq] at hx
      rcases List.mem_cons.mp hm with rfl | hmr
      · rw [← hx]
      · cases hmr
    | cons b rest' =>
      subst hr
      rw [List.getLast?_cons_cons] at hx
      rcases List.mem_cons.mp hm with rfl | hmr
      · exact le_of_lt (ha x (getLast?_mem_list _ x hx))
      · exact ih hrest m hmr x hx

theorem find?_self_of_pairwise :
    ∀ (L : List Migration), List.Pairwise (fun a b => a.order < b.order) L →
      ∀ m ∈ L, L.find? (fun am => am.order == m.order) = some m := by
  intro L
  induction L with
  | nil => intro _ m hm; cases hm
  | cons a rest ih =>
    intro hp m hm
    rcases List.pairwise_cons.mp hp with ⟨ha, hrest⟩
    rcases List.mem_cons.mp hm with rfl | hmr
    · exact List.find?_cons_of_pos _ (by simp)
    · have hlt : a.order < m.order := ha m hmr
      rw [List.find?_cons_of_neg _ (by simp [Int.ne_of_lt hlt]), ih hrest m hmr]

/-- A catalog stays valid through a successful `listAppend`: the builder
`migrationList()....migrate(...)` only produces `ValidCatalog` lists. -/
theorem validCatalog_listAppend (ms : List Migration) (m : Migration)
    (ms' : List Migration) (hv : ValidCatalog ms) (h : listAppend ms m = .ok ms') :
    ValidCatalog ms' := by
  rcases hv with ⟨hp, hpos⟩
  by_cases h0 : m.order ≤ 0
  · simp [listAppend, h0] at h
  · have hms' : ms' = ms ++ [m] ∧ ∀ x, ms.getLast? = some x → x.order < m.order := by
      cases hlast : ms.getLast? with
      | none =>
        simp only [listAppend, if_neg h0, hlast] at h
        exact ⟨by cases h; rfl, fun x hx => by cases hx⟩
      | some lastM =>
        simp only [listAppend, if_neg h0, hlast] at h
        by_cases hle : m.order ≤ lastM.order
        · rw [if_pos hle] at h; cases h
        · rw [if_neg hle] at h
          refine ⟨by cases h; rfl, fun x hx => ?_⟩
          cases hx
          exact Int.not_le.mp hle
    rcases hms' with ⟨rfl, hgt⟩
    constructor
    · rw [List.pairwise_append]
      refine ⟨hp, by simp, fun a ha b hb => ?_⟩
      rcases List.mem_singleton.mp hb with rfl
      cases hlast : ms.getLast? with
      | none => rw [List.getLast?_eq_none_iff] at hlast; subst hlast; cases ha
      | some lastM =>
        exact lt_of_le_of_lt (pairwise_le_getLast ms hp a ha lastM hlast) (hgt lastM hlast)
    · intro x hx
      rcases List.mem_append.mp hx with h1 | h2
      · exact hpos x h1
      · rcases List.mem_singleton.mp h2 with rfl
        exact Int.not_le.mp h0

/-! ### Lemmas about the application loop -/
theorem lastOrd_nil (d : Int) : lastOrd [] d = d := rfl

theorem lastOrd_cons (m : Migration) (l : List Migration) (d : Int) :
    lastOrd (m :: l) d = lastOrd l m.order := by
  cases hr : l with
  | nil => rfl
  | cons b l' =>
    cases hgl : (b :: l').getLast? with
    | none => rw [List.getLast?_eq_none_iff] at hgl; cases hgl
    | some x => simp [lastOrd, List.getLast?_cons_cons, hgl]

theorem applySteps_cons_ok (exec : String → Except String Unit) (now : Nat)
    (m : Migration) (rest : List Migration) (st : ApplyState)
    (hm : exec m.query = .ok ()) :
    applySteps exec now (m :: rest) st =
      applySteps exec now rest
        ⟨st.store ++ [successEntry now m], st.executed ++ [m.query],
          m.order, st.hasError, st.errorMessage⟩ := by
  simp [applySteps, hm]

theorem applySteps_cons_error (exec : String → Except String Unit) (now : Nat)
    (m : Migration) (rest : List Migration) (st : ApplyState) (msg : String)
    (hm : exec m.query = .error msg) :
    applySteps exec now (m :: rest) st =
      ⟨st.store ++ [failureEntry now m msg], st.executed ++ [m.query],
        st.lastSuccessful, true, msg⟩ := by
  simp [applySteps, hm]

theorem applySteps_append_ok (exec : String → Except String Unit) (now : Nat) :
    ∀ (pre rest : List Migration) (st : ApplyState),
      (∀ m ∈ pre, exec m.query = .ok ()) →
      applySteps exec now (pre ++ rest) st =
        applySteps exec now rest
          ⟨st.store ++ pre.map (successEntry now),
            st.executed ++ pre.map (fun m => m.query),
            lastOrd pre st.lastSuccessful, st.hasError, st.errorMessage⟩ := by
  intro pre
  induction pre with
  | nil => intro rest st _; simp [lastOrd_nil]
  | cons m pre' ih =>
    intro rest st hok
    rw [List.cons_append, applySteps_cons_ok exec now m (pre' ++ rest) st (hok m (by simp)),
      ih rest _ (fun x hx => hok x (by simp [hx]))]
    simp only [List.map_cons, lastOrd_cons]
    congr 1
    simp [List.append_assoc]

theorem applySteps_ok_shape (exec : String → Except String Unit) (now : Nat)
    (l : List Migration) (st : ApplyState) (h : ∀ m ∈ l, exec m.query = .ok ()) :
    applySteps exec now l st =
      ⟨st.store ++ l.map (successEntry now), st.executed ++ l.map (fun m => m.query),
        lastOrd l st.lastSuccessful, st.hasError, st.errorMessage⟩ := by
  have := applySteps_append_ok exec now l [] st h
  rw [List.append_nil] at this
  exact this

theorem applySteps_fail_shape (exec : String → Except String Unit) (now : Nat)
    (pre : List Migration) (k : Migration) (restL : List Migration)
    (st : ApplyState) (msg : String)
    (hpre : ∀ m ∈ pre, exec m.query = .ok ()) (hk : exec k.query = .error msg) :
    applySteps exec now (pre ++ k :: restL) st =
      ⟨st.store ++ pre.map (successEntry now) ++ [failureEntry now k msg],
        st.executed ++ pre.map (fun m => m.query) ++ [k.query],
        lastOrd pre st.lastSuccessful, true, msg⟩ := by
  rw [applySteps_append_ok exec now pre (k :: restL) st hpre,
    applySteps_cons_error exec now k restL _ msg hk]

theorem applySteps_ok_all (exec : String → Except String Unit) (now : Nat) :
    ∀ (l : List Migration) (st : ApplyState),
      (applySteps exec now l st).hasError = false →
      ∀ m ∈ l, exec m.query = .ok () := by
  intro l
  induction l with
  | nil => intro st _ m hm; cases hm
  | cons k rest ih =>
    intro st h m hm
    cases hk : exec k.query with
    | ok u =>
      cases u
      rcases List.mem_cons.mp hm with rfl | hmr
      · exact hk
      · rw [applySteps_cons_ok exec now k rest st hk] at h
        exact ih _ h m hmr
    | error msg =>
      rw [applySteps_cons_error exec now k rest st msg hk] at h
      cases h

theorem applySteps_store_fresh (exec : String → Except String Unit) (now : Nat) :
    ∀ (l : List Migration) (st : ApplyState),
      ∃ fresh, (applySteps exec now l st).store = st.store ++ fresh ∧
        ∀ e ∈ fresh, e.runTs = now := by
  intro l
  induction l with
  | nil => intro st; exact ⟨[], by simp [applySteps], fun e he => by cases he⟩
  | cons k rest ih =>
    intro st
    cases hk : exec k.query with
    | ok u =>
      cases u
      obtain ⟨fresh, hst, hts⟩ := ih ⟨st.store ++ [successEntry now k],
        st.executed ++ [k.query], k.order, st.hasError, st.errorMessage⟩
      refine ⟨[successEntry now k] ++ fresh, ?_, ?_⟩
      · rw [applySteps_cons_ok exec now k rest st hk, hst]
        simp [List.append_assoc]
      · intro e he
        rcases List.mem_append.mp he with h1 | h2
        · rcases List.mem_singleton.mp h1 with rfl; rfl
        · exact hts e h2
    | error msg =>
      refine ⟨[failureEntry now k msg], ?_, ?_⟩
      · rw [applySteps_cons_error exec now k rest st msg hk]
      · intro e he
        rcases List.mem_singleton.mp he with rfl; rfl

/-! ### Unfolding lemmas for a whole pass -/
theorem migrate_eq_error (L : List Migration) (exec : String → Except String Unit)
    (now : Nat) (S : List LogEntry) (msg : String)
    (h : checkHistory L (sortByCreationOrder S) (-1) = .error msg) :
    migrate L exec now S = .error msg := by
  simp [migrate, h]

theorem migrate_eq_ok (L : List Migration) (exec : String → Except String Unit)
    (now : Nat) (S : List LogEntry) (last0 : Int)
    (h : checkHistory L (sortByCreationOrder S) (-1) = .ok last0) :
    migrate L exec now S =
      (if (applySteps exec now (L.filter (fun m => last0 < m.order))
            ⟨S.filter (fun e => e.successful), [], last0, false, ""⟩).hasError then
        Except.ok
          ⟨(applySteps exec now (L.filter (fun m => last0 < m.order))
              ⟨S.filter (fun e => e.successful), [], last0, false, ""⟩).store,
            (applySteps exec now (L.filter (fun m => last0 < m.order))
              ⟨S.filter (fun e => e.successful), [], last0, false, ""⟩).executed,
            .failure
              (applySteps exec now (L.filter (fun m => last0 < m.order))
                ⟨S.filter (fun e => e.successful), [], last0, false, ""⟩).lastSuccessful
              (applySteps exec now (L.filter (fun m => last0 < m.order))
                ⟨S.filter (fun e => e.successful), [], last0, false, ""⟩).errorMessage⟩
      else
        Except.ok
          ⟨(applySteps exec now (L.filter (fun m => last0 < m.order))
              ⟨S.filter (fun e => e.successful), [], last0, false, ""⟩).store,
            (applySteps exec now (L.filter (fun m => last0 < m.order))
              ⟨S.filter (fun e => e.successful), [], last0, false, ""⟩).executed,
            .success
              (applySteps exec now (L.filter (fun m => last0 < m.order))
                ⟨S.filter (fun e => e.successful), [], last0, false, ""⟩).lastSuccessful⟩) := by
  simp [migrate, h]

/-- Claim C1 — Fail-fast application: in a pass whose history validation
yields `last0`, if the pending steps are `pre ++ k :: rest` with every step
of `pre` executing successfully and `k`'s statement failing with `msg`, then
a `successful = false` row carrying `msg` is inserted for `k`, no statement
of `rest` is executed or recorded, `migrate` returns (rather than throws) a
`failure` result whose `errorMessage` is `msg`, and its `lastSuccessful` is
the order reached before `k`, strictly below `k.order`. -/
theorem migrate_fail_fast (L : List Migration) (exec : String → Except String Unit)
    (now : Nat) (S : List LogEntry) (last0 : Int) (pre : List Migration)
    (k : Migration) (rest : List Migration) (msg : String)
    (hv : ValidCatalog L)
    (hist : checkHistory L (sortByCreationOrder S) (-1) = .ok last0)
    (hpend : L.filter (fun m => last0 < m.order) = pre ++ k :: rest)
    (hpre : ∀ m ∈ pre, exec m.query = .ok ())
    (hk : exec k.query = .error msg) :
    migrate L exec now S =
      .ok ⟨S.filter (fun e => e.successful) ++ pre.map (successEntry now)
            ++ [failureEntry now k msg],
          pre.map (fun m => m.query) ++ [k.query],
          .failure (lastOrd pre last0) msg⟩ ∧
    lastOrd pre last0 < k.order := by
  constructor
  · rw [migrate_eq_ok L exec now S last0 hist, hpend,
      applySteps_fail_shape exec now pre k rest _ msg hpre hk]
    simp
  · cases hgl : pre.getLast? with
    | none =>
      have hpre0 : pre = [] := List.getLast?_eq_none_iff.mp hgl
      subst hpre0
      have hkmem : k ∈ L.filter (fun m => last0 < m.order) := by
        rw [hpend]; simp
      have := List.of_mem_filter hkmem
      simpa [lastOrd_nil] using this
    | some x =>
      have hpw : List.Pairwise (fun a b => a.order < b.order) (pre ++ k :: rest) := by
        rw [← hpend]; exact hv.1.filter _
      have hxmem : x ∈ pre := getLast?_mem_list pre x hgl
      have hxk : x.order < k.order := by
        rw [List.pairwise_append] at hpw
        exact hpw.2.2 x hxmem k (by simp)
      simpa [lastOrd, hgl] using hxk

/-- Witness for C1: a two-step catalog where the second statement fails. -/
theorem migrate_fail_fast_witness :
    migrate ([⟨1, "a", "q1"⟩, ⟨2, "b", "q2"⟩] : List Migration)
        (fun s => if s = "q2" then .error "boom" else .ok ()) 7 [] =
      .ok ⟨List.filter (fun e => e.successful) [] ++
            List.map (successEntry 7) [⟨1, "a", "q1"⟩] ++
            [failureEntry 7 ⟨2, "b", "q2"⟩ "boom"],
          List.map (fun m : Migration => m.query) [⟨1, "a", "q1"⟩] ++ ["q2"],
          .failure (lastOrd [⟨1, "a", "q1"⟩] (-1)) "boom"⟩ ∧
    lastOrd [⟨1, "a", "q1"⟩] (-1) < (⟨2, "b", "q2"⟩ : Migration).order :=
  migrate_fail_fast ([⟨1, "a", "q1"⟩, ⟨2, "b", "q2"⟩] : List Migration)
    (fun s => if s = "q2" then .error "boom" else .ok ()) 7 [] (-1)
    ([⟨1, "a", "q1"⟩] : List Migration) (⟨2, "b", "q2"⟩ : Migration) [] "boom"
    ⟨by simp [List.pairwise_cons], by decide⟩
    (by rfl) (by rfl)
    (by intro m hm; rcases List.mem_singleton.mp hm with rfl; rfl) (by rfl)

/-- Claim C3 — Ascending full application: a valid nonempty catalog run on
an empty log store executes each statement in catalog (ascending) order,
leaves exactly one successful row per step, in order, with `queryExecuted`
equal to the step's statement, and returns success with `lastSuccessful`
equal to the last step's order. -/
theorem migrate_full_ascending (L : List Migration)
    (exec : String → Except String Unit) (now : Nat)
    (hv : ValidCatalog L) (hne : L ≠ [])
    (hok : ∀ m ∈ L, exec m.query = .ok ()) :
    migrate L exec now [] =
      .ok ⟨L.map (successEntry now), L.map (fun m => m.query),
          .success ((L.getLast hne).order)⟩ := by
  have hist : checkHistory L (sortByCreationOrder []) (-1) = .ok (-1) := rfl
  have hfilter : L.filter (fun m => (-1 : Int) < m.order) = L := by
    apply List.filter_eq_self.mpr
    intro m hm
    have := hv.2 m hm
    simp only [decide_eq_true_eq]
    omega
  rw [migrate_eq_ok L exec now [] (-1) hist, hfilter,
    applySteps_ok_shape exec now L _ hok]
  have hlast : lastOrd L (-1) = (L.getLast hne).order := by
    rw [lastOrd, List.getLast?_eq_getLast L hne]
  simp [hlast]

/-- Witness for C3: the concrete two-step scenario of the spec. -/
theorem migrate_full_ascending_witness :
    migrate ([⟨1, "M1", "create table t"⟩, ⟨2, "M2", "insert into t values(1)"⟩] :
        List Migration) (fun _ => .ok ()) 3 [] =
      .ok ⟨List.map (successEntry 3)
            [⟨1, "M1", "create table t"⟩, ⟨2, "M2", "insert into t values(1)"⟩],
          List.map (fun m : Migration => m.query)
            [⟨1, "M1", "create table t"⟩, ⟨2, "M2", "insert into t values(1)"⟩],
          .success ((List.getLast
            ([⟨1, "M1", "create table t"⟩, ⟨2, "M2", "insert into t values(1)"⟩] :
              List Migration)
            (by decide)).order)⟩ :=
  migrate_full_ascending
    ([⟨1, "M1", "create table t"⟩, ⟨2, "M2", "insert into t values(1)"⟩] : List Migration)
    (fun _ => .ok ()) 3
    ⟨by simp [List.pairwise_cons], by decide⟩ (by decide) (by intro m _; rfl)

/-- Claim C6 — Purge of failed attempts: whenever a pass gets past history
validation (`migrate` returns a result rather than throwing), the final log
store is the old store with every `successful = false` row deleted —
whatever order it belongs to — every `successful = true` row kept unchanged,
and only rows freshly stamped in this pass appended after them. -/
theorem migrate_purges_failed (L : List Migration)
    (exec : String → Except String Unit) (now : Nat) (S : List LogEntry)
    (out : MigrateOutcome) (h : migrate L exec now S = .ok out) :
    ∃ fresh, out.store = S.filter (fun e => e.successful) ++ fresh ∧
      ∀ e ∈ fresh, e.runTs = now := by
  cases hist : checkHistory L (sortByCreationOrder S) (-1) with
  | error msg =>
    rw [migrate_eq_error L exec now S msg hist] at h
    cases h
  | ok last0 =>
    rw [migrate_eq_ok L exec now S last0 hist] at h
    obtain ⟨fresh, hst, hts⟩ := applySteps_store_fresh exec now
      (L.filter (fun m => last0 < m.order))
      ⟨S.filter (fun e => e.successful), [], last0, false, ""⟩
    refine ⟨fresh, ?_, hts⟩
    by_cases hhe : (applySteps exec now (L.filter (fun m => last0 < m.order))
        ⟨S.filter (fun e => e.successful), [], last0, false, ""⟩).hasError = true
    · rw [if_pos hhe] at h
      injection h with h2
      subst h2
      exact hst
    · rw [if_neg hhe] at h
      injection h with h2
      subst h2
      exact hst

/-- Witness for C6: a store holding one failed and one successful row. -/
theorem migrate_purges_failed_witness :
    ∃ fresh,
      (MigrateOutcome.mk [⟨1, "M1", 0, "q1", true, ""⟩] [] (.success 1)).store =
        List.filter (fun e => e.successful)
          [⟨1, "M1", 0, "q1", true, ""⟩, ⟨2, "M2", 0, "q2", false, "old"⟩] ++ fresh ∧
      ∀ e ∈ fresh, e.runTs = 9 :=
  migrate_purges_failed ([⟨1, "M1", "q1"⟩] : List Migration) (fun _ => .ok ()) 9
    [⟨1, "M1", 0, "q1", true, ""⟩, ⟨2, "M2", 0, "q2", false, "old"⟩]
    (MigrateOutcome.mk [⟨1, "M1", 0, "q1", true, ""⟩] [] (.success 1)) (by rfl)

/-! ### More substring lemmas -/
theorem leadMatch_exists (n : List Char) :
    ∀ h, leadMatch n h = true → ∃ t, h = n ++ t := by
  induction n with
  | nil => intro h _; exact ⟨h, rfl⟩
  | cons a as ih =>
    intro h hl
    cases h with
    | nil => cases hl
    | cons b bs =>
      simp only [leadMatch, Bool.and_eq_true, beq_iff_eq] at hl
      obtain ⟨t, ht⟩ := ih bs hl.2
      exact ⟨t, by rw [hl.1, ht]; rfl⟩

theorem subSearch_exists (n : List Char) :
    ∀ h, subSearch n h = true → ∃ s t, h = s ++ n ++ t := by
  intro h
  induction h with
  | nil =>
    intro hs
    simp only [subSearch, List.isEmpty_iff] at hs
    exact ⟨[], [], by simp [hs]⟩
  | cons b bs ih =>
    intro hs
    rcases Bool.or_eq_true_iff.mp hs with h1 | h2
    · obtain ⟨t, ht⟩ := leadMatch_exists n (b :: bs) h1
      exact ⟨[], t, by simp [ht]⟩
    · obtain ⟨s, t, hst⟩ := ih h2
      exact ⟨b :: s, t, by rw [hst]; rfl⟩

theorem strContains_self (t : String) : strContains t t := by
  show subSearch t.data t.data = true
  have := subSearch_of_append [] t.data []
  simpa using this

theorem strContains_left (a b t : String) (h : strContains a t) :
    strContains (a ++ b) t := by
  obtain ⟨s, u, hdecomp⟩ := subSearch_exists t.data a.data h
  show subSearch t.data (a ++ b).data = true
  rw [string_data_append, hdecomp]
  have := subSearch_of_append s t.data (u ++ b.data)
  simpa [List.append_assoc] using this

theorem strContains_right (a b t : String) (h : strContains b t) :
    strContains (a ++ b) t := by
  obtain ⟨s, u, hdecomp⟩ := subSearch_exists t.data b.data h
  show subSearch t.data (a ++ b).data = true
  rw [string_data_append, hdecomp]
  have := subSearch_of_append (a.data ++ s) t.data u
  simpa [List.append_assoc] using this

theorem notFoundMessage_mentions (e : LogEntry) :
    strContains (notFoundMessage e) "not found in your list" ∧
    strContains (notFoundMessage e) (toString e.creationOrder) ∧
    strContains (notFoundMessage e) e.queryExecuted ∧
    strContains (notFoundMessage e) (toString e.runTs) := by
  refine ⟨?_, ?_, ?_, ?_⟩
  · exact strContains_left _ _ _ (strContains_left _ _ _ (strContains_left _ _ _
      (strContains_left _ _ _ (strContains_right _ _ _ (by decide)))))
  · exact strContains_left _ _ _ (strContains_left _ _ _ (strContains_left _ _ _
      (strContains_left _ _ _ (strContains_left _ _ _
        (strContains_right _ _ _ (strContains_self _))))))
  · exact strContains_left _ _ _ (strContains_left _ _ _ (strContains_left _ _ _
      (strContains_right _ _ _ (strContains_self _))))
  · exact strContains_left _ _ _ (strContains_right _ _ _ (strContains_self _))

theorem modifiedMessage_mentions (e : LogEntry) :
    strContains (modifiedMessage e) "query text modified" ∧
    strContains (modifiedMessage e) (toString e.creationOrder) ∧
    strContains (modifiedMessage e) e.queryExecuted ∧
    strContains (modifiedMessage e) (toString e.runTs) := by
  refine ⟨?_, ?_, ?_, ?_⟩
  · exact strContains_left _ _ _ (strContains_left _ _ _ (strContains_left _ _ _
      (strContains_left _ _ _ (strContains_right _ _ _ (by decide)))))
  · exact strContains_left _ _ _ (strContains_left _ _ _ (strContains_left _ _ _
      (strContains_left _ _ _ (strContains_left _ _ _
        (strContains_right _ _ _ (strContains_self _))))))
  · exact strContains_left _ _ _ (strContains_left _ _ _ (strContains_left _ _ _
      (strContains_right _ _ _ (strContains_self _))))
  · exact strContains_left _ _ _ (strContains_right _ _ _ (strContains_self _))

/-! ### First history-integrity violation -/
theorem mem_first_split {α : Type} [DecidableEq α] :
    ∀ (l : List α) (a : α), a ∈ l → ∃ s t, l = s ++ a :: t ∧ a ∉ s := by
  intro l
  induction l with
  | nil => intro a ha; cases ha
  | cons b rest ih =>
    intro a ha
    by_cases hab : a = b
    · subst hab
      exact ⟨[], rest, rfl, by simp⟩
    · rcases List.mem_cons.mp ha with h | h
      · exact absurd h hab
      · obtain ⟨s, t, hst, hnot⟩ := ih a h
        exact ⟨b :: s, t, by rw [hst]; rfl, by simp [hab, hnot]⟩

/-- Entries of the history that precede (in sorted order) the first violating
entry all validate, so the validation loop reaches the violating entry. -/
theorem sorted_split_validates (L : List Migration) (S : List LogEntry)
    (e : LogEntry) (l₁ l₂ : List LogEntry)
    (hsplit : sortByCreationOrder S = l₁ ++ e :: l₂) (hnot : e ∉ l₁)
    (hfirst : ∀ x ∈ S, x.successful = true → x.creationOrder < e.creationOrder →
      Validates L x)
    (hsame : ∀ x ∈ S, x.successful = true → x.creationOrder = e.creationOrder → x = e) :
    ∀ x ∈ l₁, x.successful = true → Validates L x := by
  intro x hx hsx
  have hxS : x ∈ S := by
    rw [← mem_sortByCreationOrder S x, hsplit]
    exact List.mem_append.mpr (Or.inl hx)
  have hsorted : List.Sorted entryLe (l₁ ++ e :: l₂) := by
    rw [← hsplit]; exact sorted_sortByCreationOrder S
  have hxe : entryLe x e :=
    (List.pairwise_append.mp hsorted).2.2 x hx e (by simp)
  rcases lt_or_eq_of_le hxe with hlt | heq
  · exact hfirst x hxS hsx hlt
  · exact absurd (hsame x hxS hsx heq) (fun hxeq => hnot (hxeq ▸ hx))

/-- If the first violating successful entry of the sorted history is missing
from the list, validation throws the not-found message. -/
theorem checkHistory_first_notFound (L : List Migration) (S : List LogEntry)
    (e : LogEntry) (he : e ∈ S) (hse : e.successful = true)
    (hnf : L.find? (fun am => am.order == e.creationOrder) = none)
    (hfirst : ∀ x ∈ S, x.successful = true → x.creationOrder < e.creationOrder →
      Validates L x)
    (hsame : ∀ x ∈ S, x.successful = true → x.creationOrder = e.creationOrder → x = e) :
    checkHistory L (sortByCreationOrder S) (-1) = .error (notFoundMessage e) := by
  have heS : e ∈ sortByCreationOrder S := (mem_sortByCreationOrder S e).mpr he
  obtain ⟨l₁, l₂, hsplit, hnot⟩ := mem_first_split (sortByCreationOrder S) e heS
  rw [hsplit, checkHistory_append L l₁ (e :: l₂) (-1)
    (sorted_split_validates L S e l₁ l₂ hsplit hnot hfirst hsame)]
  exact checkHistory_cons_notFound L e l₂ _ hse hnf

/-- If the first violating successful entry of the sorted history has its
query text changed in the list, validation throws the modified message. -/
theorem checkHistory_first_modified (L : List Migration) (S : List LogEntry)
    (e : LogEntry) (m : Migration) (he : e ∈ S) (hse : e.successful = true)
    (hf : L.find? (fun am => am.order == e.creationOrder) = some m)
    (hq : m.query ≠ e.queryExecuted)
    (hfirst : ∀ x ∈ S, x.successful = true → x.creationOrder < e.creationOrder →
      Validates L x)
    (hsame : ∀ x ∈ S, x.successful = true → x.creationOrder = e.creationOrder → x = e) :
    checkHistory L (sortByCreationOrder S) (-1) = .error (modifiedMessage e) := by
  have heS : e ∈ sortByCreationOrder S := (mem_sortByCreationOrder S e).mpr he
  obtain ⟨l₁, l₂, hsplit, hnot⟩ := mem_first_split (sortByCreationOrder S) e heS
  rw [hsplit, checkHistory_append L l₁ (e :: l₂) (-1)
    (sorted_split_validates L S e l₁ l₂ hsplit hnot hfirst hsame)]
  rw [checkHistory_cons_found L e l₂ _ m hse hf, if_pos hq]

/-- Claim C4 (amended) — Tamper detection for a removed step: if the log
store holds a successful entry whose order is absent from the catalog, and
that entry is the first history-integrity violation in ascending
`creationOrder` order (every successful entry of smaller order is intact and
no other successful entry shares its order), then `migrate` throws — for
every executor, so before any new step's statement runs — an error whose
message mentions "not found in your list", the entry's order, its recorded
query text, and its timestamp. -/
theorem migrate_tamper_removed (L : List Migration) (S : List LogEntry)
    (e : LogEntry) (he : e ∈ S) (hse : e.successful = true)
    (hnf : L.find? (fun am => am.order == e.creationOrder) = none)
    (hfirst : ∀ x ∈ S, x.successful = true → x.creationOrder < e.creationOrder →
      Validates L x)
    (hsame : ∀ x ∈ S, x.successful = true → x.creationOrder = e.creationOrder → x = e) :
    (∀ exec now, migrate L exec now S = .error (notFoundMessage e)) ∧
    strContains (notFoundMessage e) "not found in your list" ∧
    strContains (notFoundMessage e) (toString e.creationOrder) ∧
    strContains (notFoundMessage e) e.queryExecuted ∧
    strContains (notFoundMessage e) (toString e.runTs) := by
  refine ⟨fun exec now => ?_, notFoundMessage_mentions e⟩
  exact migrate_eq_error L exec now S (notFoundMessage e)
    (checkHistory_first_notFound L S e he hse hnf hfirst hsame)

/-- Counterexample to C4 as stated: the store holds a successful entry of
order 2 that is absent from the catalog, yet the error actually raised is
the content-mutation message for the earlier (modified) entry of order 1 and
does not mention "not found in your list". -/
theorem migrate_tamper_removed_counterexample :
    (⟨2, "M2", 20, "B", true, ""⟩ : LogEntry) ∈
      ([⟨1, "M1", 10, "A1", true, ""⟩, ⟨2, "M2", 20, "B", true, ""⟩] : List LogEntry) ∧
    List.find? (fun am => am.order == (2 : Int)) ([⟨1, "M1", "A2"⟩] : List Migration)
      = none ∧
    migrate ([⟨1, "M1", "A2"⟩] : List Migration) (fun _ => .ok ()) 0
        [⟨1, "M1", 10, "A1", true, ""⟩, ⟨2, "M2", 20, "B", true, ""⟩] =
      .error (modifiedMessage ⟨1, "M1", 10, "A1", true, ""⟩) ∧
    ¬ strContains (modifiedMessage ⟨1, "M1", 10, "A1", true, ""⟩)
        "not found in your list" := by
  refine ⟨by decide, by rfl, by rfl, by decide⟩

/-- Witness for the amended C4. -/
theorem migrate_tamper_removed_witness :
    (∀ exec now, migrate ([⟨1, "M1", "A"⟩] : List Migration) exec now
        [⟨2, "M2", 20, "B", true, ""⟩] =
      .error (notFoundMessage ⟨2, "M2", 20, "B", true, ""⟩)) ∧
    strContains (notFoundMessage ⟨2, "M2", 20, "B", true, ""⟩) "not found in your list" ∧
    strContains (notFoundMessage ⟨2, "M2", 20, "B", true, ""⟩) (toString (2 : Int)) ∧
    strContains (notFoundMessage ⟨2, "M2", 20, "B", true, ""⟩) "B" ∧
    strContains (notFoundMessage ⟨2, "M2", 20, "B", true, ""⟩) (toString (20 : Nat)) :=
  migrate_tamper_removed ([⟨1, "M1", "A"⟩] : List Migration)
    [⟨2, "M2", 20, "B", true, ""⟩] ⟨2, "M2", 20, "B", true, ""⟩
    (by decide) (by rfl) (by rfl)
    (fun x hx _ hlt => by
      rcases List.mem_singleton.mp hx with rfl
      exact absurd hlt (by decide))
    (fun x hx _ _ => by rcases List.mem_singleton.mp hx with rfl; rfl)

/-- Claim C5 (amended) — Tamper detection for an edited step: if the log
store holds a successful entry whose order is found in the catalog with a
different statement text, and that entry is the first history-integrity
violation in ascending `creationOrder` order, then `migrate` throws — for
every executor, so before any new step's statement runs — an error whose
message mentions "query text modified", the original query text and its
timestamp. -/
theorem migrate_tamper_modified (L : List Migration) (S : List LogEntry)
    (e : LogEntry) (m : Migration) (he : e ∈ S) (hse : e.successful = true)
    (hf : L.find? (fun am => am.order == e.creationOrder) = some m)
    (hq : m.query ≠ e.queryExecuted)
    (hfirst : ∀ x ∈ S, x.successful = true → x.creationOrder < e.creationOrder →
      Validates L x)
    (hsame : ∀ x ∈ S, x.successful = true → x.creationOrder = e.creationOrder → x = e) :
    (∀ exec now, migrate L exec now S = .error (modifiedMessage e)) ∧
    strContains (modifiedMessage e) "query text modified" ∧
    strContains (modifiedMessage e) e.queryExecuted ∧
    strContains (modifiedMessage e) (toString e.runTs) := by
  refine ⟨fun exec now => ?_, (modifiedMessage_mentions e).1,
    (modifiedMessage_mentions e).2.2.1, (modifiedMessage_mentions e).2.2.2⟩
  exact migrate_eq_error L exec now S (modifiedMessage e)
    (checkHistory_first_modified L S e m he hse hf hq hfirst hsame)

/-- Counterexample to C5 as stated: the catalog's step of order 2 has a
statement differing from the recorded one, yet the error actually raised is
the not-found message for the earlier removed entry of order 1 and does not
mention "query text modified". -/
theorem migrate_tamper_modified_counterexample :
    (⟨2, "M2", 20, "B", true, ""⟩ : LogEntry) ∈
      ([⟨1, "M1", 10, "A", true, ""⟩, ⟨2, "M2", 20, "B", true, ""⟩] : List LogEntry) ∧
    List.find? (fun am => am.order == (2 : Int)) ([⟨2, "M2", "B2"⟩] : List Migration)
      = some ⟨2, "M2", "B2"⟩ ∧
    ("B2" : String) ≠ "B" ∧
    migrate ([⟨2, "M2", "B2"⟩] : List Migration) (fun _ => .ok ()) 0
        [⟨1, "M1", 10, "A", true, ""⟩, ⟨2, "M2", 20, "B", true, ""⟩] =
      .error (notFoundMessage ⟨1, "M1", 10, "A", true, ""⟩) ∧
    ¬ strContains (notFoundMessage ⟨1, "M1", 10, "A", true, ""⟩)
        "query text modified" := by
  refine ⟨by decide, by rfl, by decide, by rfl, by decide⟩

/-- Witness for the amended C5. -/
theorem migrate_tamper_modified_witness :
    (∀ exec now, migrate ([⟨1, "M1", "A2"⟩] : List Migration) exec now
        [⟨1, "M1", 10, "A", true, ""⟩] =
      .error (modifiedMessage ⟨1, "M1", 10, "A", true, ""⟩)) ∧
    strContains (modifiedMessage ⟨1, "M1", 10, "A", true, ""⟩) "query text modified" ∧
    strContains (modifiedMessage ⟨1, "M1", 10, "A", true, ""⟩) "A" ∧
    strContains (modifiedMessage ⟨1, "M1", 10, "A", true, ""⟩) (toString (10 : Nat)) :=
  migrate_tamper_modified ([⟨1, "M1", "A2"⟩] : List Migration)
    [⟨1, "M1", 10, "A", true, ""⟩] ⟨1, "M1", 10, "A", true, ""⟩ ⟨1, "M1", "A2"⟩
    (by decide) (by rfl) (by rfl) (by decide)
    (fun x hx _ hlt => by
      rcases List.mem_singleton.mp hx with rfl
      exact absurd hlt (by decide))
    (fun x hx _ _ => by rcases List.mem_singleton.mp hx with rfl; rfl)

/-! ### The content-change escape hatch -/
theorem checkHistoryFlag_cons_skip (allow : Bool) (L : List Migration)
    (e : LogEntry) (rest : List LogEntry) (init : Int) (hs : e.successful = false) :
    checkHistoryFlag allow L (e :: rest) init = checkHistoryFlag allow L rest init := by
  cases e with
  | mk co d ts q succ msg =>
    simp only at hs
    subst hs
    simp [checkHistoryFlag]

theorem checkHistoryFlag_cons_notFound (allow : Bool) (L : List Migration)
    (e : LogEntry) (rest : List LogEntry) (init : Int) (hs : e.successful = true)
    (hfind : L.find? (fun am => am.order == e.creationOrder) = none) :
    checkHistoryFlag allow L (e :: rest) init = .error (notFoundMessage e) := by
  cases e with
  | mk co d ts q succ msg =>
    simp only at hs hfind ⊢
    subst hs
    simp [checkHistoryFlag, hfind]

theorem checkHistoryFlag_cons_found_true (L : List Migration)
    (e : LogEntry) (rest : List LogEntry) (init : Int) (m : Migration)
    (hs : e.successful = true)
    (hfind : L.find? (fun am => am.order == e.creationOrder) = some m) :
    checkHistoryFlag true L (e :: rest) init =
      checkHistoryFlag true L rest e.creationOrder := by
  cases e with
  | mk co d ts q succ msg =>
    simp only at hs hfind ⊢
    subst hs
    simp [checkHistoryFlag, hfind]

theorem checkHistoryFlag_cons_found_false (L : List Migration)
    (e : LogEntry) (rest : List LogEntry) (init : Int) (m : Migration)
    (hs : e.successful = true)
    (hfind : L.find? (fun am => am.order == e.creationOrder) = some m) :
    checkHistoryFlag false L (e :: rest) init =
      if m.query ≠ e.queryExecuted then .error (modifiedMessage e)
      else checkHistoryFlag false L rest e.creationOrder := by
  cases e with
  | mk co d ts q succ msg =>
    simp only at hs hfind ⊢
    subst hs
    simp [checkHistoryFlag, hfind]

theorem checkHistoryFlag_false_eq (L : List Migration) :
    ∀ (l : List LogEntry) (init : Int),
      checkHistoryFlag false L l init = checkHistory L l init := by
  intro l
  induction l with
  | nil => intro init; rfl
  | cons e rest ih =>
    intro init
    by_cases hs : e.successful = true
    · cases hfind : L.find? (fun am => am.order == e.creationOrder) with
      | none =>
        rw [checkHistoryFlag_cons_notFound false L e rest init hs hfind,
          checkHistory_cons_notFound L e rest init hs hfind]
      | some m =>
        rw [checkHistoryFlag_cons_found_false L e rest init m hs hfind,
          checkHistory_cons_found L e rest init m hs hfind]
        by_cases hq : m.query ≠ e.queryExecuted
        · rw [if_pos hq, if_pos hq]
        · rw [if_neg hq, if_neg hq, ih]
    · have hs' : e.successful = false := by simpa using hs
      rw [checkHistoryFlag_cons_skip false L e rest init hs',
        checkHistory_cons_skip L e rest init hs', ih]

theorem checkHistoryFlag_true_ok (L : List Migration) :
    ∀ (l : List LogEntry) (init : Int),
      (∀ x ∈ l, x.successful = true →
        ∃ mx, L.find? (fun am => am.order == x.creationOrder) = some mx) →
      checkHistoryFlag true L l init = .ok (histLast l init) := by
  intro l
  induction l with
  | nil => intro init _; rfl
  | cons e rest ih =>
    intro init hall
    by_cases hs : e.successful = true
    · obtain ⟨mx, hfind⟩ := hall e (by simp) hs
      rw [checkHistoryFlag_cons_found_true L e rest init mx hs hfind,
        histLast_cons, if_pos hs]
      exact ih e.creationOrder (fun x hx hsx => hall x (by simp [hx]) hsx)
    · have hs' : e.successful = false := by simpa using hs
      rw [checkHistoryFlag_cons_skip true L e rest init hs',
        histLast_cons, if_neg (by simp [hs'])]
      exact ih init (fun x hx hsx => hall x (by simp [hx]) hsx)

theorem migrateFlag_false_eq (L : List Migration) (exec : String → Except String Unit)
    (now : Nat) (S : List LogEntry) :
    migrateFlag false L exec now S = migrate L exec now S := by
  simp only [migrateFlag, migrate, checkHistoryFlag_false_eq]

theorem migrateFlag_true_ok (L : List Migration) (exec : String → Except String Unit)
    (now : Nat) (S : List LogEntry)
    (hall : ∀ x ∈ S, x.successful = true →
      ∃ mx, L.find? (fun am => am.order == x.creationOrder) = some mx) :
    ∃ out, migrateFlag true L exec now S = .ok out := by
  have hchk : checkHistoryFlag true L (sortByCreationOrder S) (-1)
      = .ok (histLast (sortByCreationOrder S) (-1)) :=
    checkHistoryFlag_true_ok L (sortByCreationOrder S) (-1)
      (fun x hx hsx => hall x ((mem_sortByCreationOrder S x).mp hx) hsx)
  simp only [migrateFlag, hchk]
  by_cases hhe : (applySteps exec now
      (L.filter (fun m => histLast (sortByCreationOrder S) (-1) < m.order))
      ⟨S.filter (fun e => e.successful), [],
        histLast (sortByCreationOrder S) (-1), false, ""⟩).hasError = true
  · rw [if_pos hhe]; exact ⟨_, rfl⟩
  · rw [if_neg hhe]; exact ⟨_, rfl⟩

/-- Claim C8 — Content-change escape hatch: with the
`allowMigrationContentsChanges` flag set, a catalog statement differing from
a successful entry's recorded `queryExecuted` does not raise the
content-mutation integrity error (the pass completes with a result); with
the flag unset, the same pass raises it as usual. Stated against the
spec-modelled flag-accepting processor `migrateFlag`. -/
theorem migrate_content_escape_hatch (L : List Migration) (S : List LogEntry)
    (e : LogEntry) (m : Migration)
    (hall : ∀ x ∈ S, x.successful = true →
      ∃ mx, L.find? (fun am => am.order == x.creationOrder) = some mx)
    (he : e ∈ S) (hse : e.successful = true)
    (hf : L.find? (fun am => am.order == e.creationOrder) = some m)
    (hq : m.query ≠ e.queryExecuted)
    (hfirst : ∀ x ∈ S, x.successful = true → x.creationOrder < e.creationOrder →
      Validates L x)
    (hsame : ∀ x ∈ S, x.successful = true → x.creationOrder = e.creationOrder → x = e) :
    (∀ exec now, ∃ out, migrateFlag true L exec now S = .ok out) ∧
    (∀ exec now, migrateFlag false L exec now S = .error (modifiedMessage e)) := by
  constructor
  · intro exec now
    exact migrateFlag_true_ok L exec now S hall
  · intro exec now
    rw [migrateFlag_false_eq]
    exact migrate_eq_error L exec now S (modifiedMessage e)
      (checkHistory_first_modified L S e m he hse hf hq hfirst hsame)

/-- Witness for C8: a store entry recorded with query "A", catalog changed
to "A2". -/
theorem migrate_content_escape_hatch_witness :
    (∀ exec now, ∃ out, migrateFlag true ([⟨1, "M1", "A2"⟩] : List Migration)
      exec now [⟨1, "M1", 10, "A", true, ""⟩] = .ok out) ∧
    (∀ exec now, migrateFlag false ([⟨1, "M1", "A2"⟩] : List Migration)
      exec now [⟨1, "M1", 10, "A", true, ""⟩] =
        .error (modifiedMessage ⟨1, "M1", 10, "A", true, ""⟩)) :=
  migrate_content_escape_hatch ([⟨1, "M1", "A2"⟩] : List Migration)
    [⟨1, "M1", 10, "A", true, ""⟩] ⟨1, "M1", 10, "A", true, ""⟩ ⟨1, "M1", "A2"⟩
    (fun x hx _ => by
      rcases List.mem_singleton.mp hx with rfl
      exact ⟨⟨1, "M1", "A2"⟩, by rfl⟩)
    (by decide) (by rfl) (by rfl) (by decide)
    (fun x hx _ hlt => by
      rcases List.mem_singleton.mp hx with rfl
      exact absurd hlt (by decide))
    (fun x hx _ _ => by rcases List.mem_singleton.mp hx with rfl; rfl)

/-- Claim C9 — Delete trigger is a no-op success: on an event whose
`RequestType` is "Delete" the adapter returns the SUCCESS response keeping
the event's `PhysicalResourceId`, whatever the connection, initialize and
migrate oracles do — none of them is consulted. -/
theorem migrationHandler_delete_noop (event : CfEvent)
    (h : event.RequestType = "Delete") :
    (∀ connectR initR migrateR,
      migrationHandler connectR initR migrateR event =
        successResponse "This is forward-only migration, delete event ignored"
          event.PhysicalResourceId event) ∧
    (successResponse "This is forward-only migration, delete event ignored"
        event.PhysicalResourceId event).Status = "SUCCESS" ∧
    (successResponse "This is forward-only migration, delete event ignored"
        event.PhysicalResourceId event).PhysicalResourceId =
      event.PhysicalResourceId := by
  refine ⟨fun connectR initR migrateR => ?_, rfl, rfl⟩
  simp [migrationHandler, h]

/-- Witness for C9. -/
theorem migrationHandler_delete_noop_witness :
    (∀ connectR initR migrateR,
      migrationHandler connectR initR migrateR ⟨"Delete", "pid", "rid", "sid", "lid"⟩ =
        successResponse "This is forward-only migration, delete event ignored"
          "pid" ⟨"Delete", "pid", "rid", "sid", "lid"⟩) ∧
    (successResponse "This is forward-only migration, delete event ignored"
        "pid" ⟨"Delete", "pid", "rid", "sid", "lid"⟩).Status = "SUCCESS" ∧
    (successResponse "This is forward-only migration, delete event ignored"
        "pid" ⟨"Delete", "pid", "rid", "sid", "lid"⟩).PhysicalResourceId = "pid" :=
  migrationHandler_delete_noop ⟨"Delete", "pid", "rid", "sid", "lid"⟩ (by rfl)

/-- Claim C10 — Adapter exception boundary: on a "Create" or "Update" event,
an exception thrown by the connection setup, by initialize (Create only) or
by migrate is not propagated: the handler returns a FAILED response whose
`Data.Result` contains the exception's message, with physical resource id
`custom-<RequestId>` on a Create event and the event's `PhysicalResourceId`
otherwise. -/
theorem migrationHandler_exception_boundary (event : CfEvent) (msg : String)
    (hrt : event.RequestType = "Create" ∨ event.RequestType = "Update") :
    (∀ initR migrateR,
      migrationHandler (.error msg) initR migrateR event =
        failureResponse ("Migration exception: " ++ msg)
          (if event.RequestType = "Create" then "custom-" ++ event.RequestId
           else event.PhysicalResourceId) event) ∧
    (event.RequestType = "Create" → ∀ migrateR,
      migrationHandler (.ok ()) (.error msg) migrateR event =
        failureResponse ("Migration exception: " ++ msg)
          ("custom-" ++ event.RequestId) event) ∧
    (∀ initR, (event.RequestType = "Create" → initR = .ok ()) →
      migrationHandler (.ok ()) initR (.error msg) event =
        failureResponse ("Migration exception: " ++ msg)
          (if event.RequestType = "Create" then "custom-" ++ event.RequestId
           else event.PhysicalResourceId) event) ∧
    (∀ pid, (failureResponse ("Migration exception: " ++ msg) pid event).Status
      = "FAILED") ∧
    (∀ pid, (failureResponse ("Migration exception: " ++ msg) pid event).Data.Result
      = "Migration exception: " ++ msg) ∧
    strContains ("Migration exception: " ++ msg) msg := by
  refine ⟨fun initR migrateR => ?_, fun hc migrateR => ?_, fun initR hi => ?_,
    fun pid => rfl, fun pid => rfl, ?_⟩
  · rcases hrt with h | h
    · simp [migrationHandler, h, bind, Except.bind, Functor.map, Except.map]
    · simp [migrationHandler, h, bind, Except.bind, Functor.map, Except.map]
  · simp [migrationHandler, hc, bind, Except.bind, Functor.map, Except.map]
  · rcases hrt with h | h
    · rw [hi h]
      simp [migrationHandler, h, bind, Except.bind, Functor.map, Except.map,
        pure, Except.pure]
    · simp [migrationHandler, h, bind, Except.bind, Functor.map, Except.map,
        pure, Except.pure]
  · exact strContains_right "Migration exception: " msg msg (strContains_self msg)

/-- Witness for C10: a Create event with a failing migrate call. -/
theorem migrationHandler_exception_boundary_witness :
    (∀ initR migrateR,
      migrationHandler (.error "down") initR migrateR
          ⟨"Create", "pid", "rid", "sid", "lid"⟩ =
        failureResponse ("Migration exception: " ++ "down")
          (if ("Create" : String) = "Create" then "custom-" ++ "rid" else "pid")
          ⟨"Create", "pid", "rid", "sid", "lid"⟩) ∧
    (("Create" : String) = "Create" → ∀ migrateR,
      migrationHandler (.ok ()) (.error "down") migrateR
          ⟨"Create", "pid", "rid", "sid", "lid"⟩ =
        failureResponse ("Migration exception: " ++ "down") ("custom-" ++ "rid")
          ⟨"Create", "pid", "rid", "sid", "lid"⟩) ∧
    (∀ initR, (("Create" : String) = "Create" → initR = .ok ()) →
      migrationHandler (.ok ()) initR (.error "down")
          ⟨"Create", "pid", "rid", "sid", "lid"⟩ =
        failureResponse ("Migration exception: " ++ "down")
          (if ("Create" : String) = "Create" then "custom-" ++ "rid" else "pid")
          ⟨"Create", "pid", "rid", "sid", "lid"⟩) ∧
    (∀ pid, (failureResponse ("Migration exception: " ++ "down") pid
        ⟨"Create", "pid", "rid", "sid", "lid"⟩).Status = "FAILED") ∧
    (∀ pid, (failureResponse ("Migration exception: " ++ "down") pid
        ⟨"Create", "pid", "rid", "sid", "lid"⟩).Data.Result =
      "Migration exception: " ++ "down") ∧
    strContains ("Migration exception: " ++ "down") "down" :=
  migrationHandler_exception_boundary ⟨"Create", "pid", "rid", "sid", "lid"⟩ "down"
    (Or.inl (by rfl))

/-! ### Idempotence of a reconciliation pass -/

/-- Decomposition of a pass that returned a success result: every pending
step executed, the final store is the purged store followed by one
successful row per pending step, and the reported `lastSuccessful` is the
last pending order (or the validated history's). -/
theorem migrate_success_shape (L : List Migration)
    (exec : String → Except String Unit) (now : Nat) (S S₁ : List LogEntry)
    (tr₁ : List String) (last₁ last0 : Int)
    (hist : checkHistory L (sortByCreationOrder S) (-1) = .ok last0)
    (h1 : migrate L exec now S = .ok ⟨S₁, tr₁, .success last₁⟩) :
    (∀ m ∈ L.filter (fun m => last0 < m.order), exec m.query = .ok ()) ∧
    S₁ = S.filter (fun e => e.successful)
      ++ (L.filter (fun m => last0 < m.order)).map (successEntry now) ∧
    last₁ = lastOrd (L.filter (fun m => last0 < m.order)) last0 := by
  rw [migrate_eq_ok L exec now S last0 hist] at h1
  by_cases hhe : (applySteps exec now (L.filter (fun m => last0 < m.order))
      ⟨S.filter (fun e => e.successful), [], last0, false, ""⟩).hasError = true
  · rw [if_pos hhe] at h1
    simp at h1
  · have hhe' : (applySteps exec now (L.filter (fun m => last0 < m.order))
        ⟨S.filter (fun e => e.successful), [], last0, false, ""⟩).hasError = false := by
      simpa using hhe
    rw [if_neg hhe] at h1
    have hok : ∀ m ∈ L.filter (fun m => last0 < m.order), exec m.query = .ok () :=
      applySteps_ok_all exec now _ _ hhe'
    have hshape := applySteps_ok_shape exec now (L.filter (fun m => last0 < m.order))
      ⟨S.filter (fun e => e.successful), [], last0, false, ""⟩ hok
    rw [hshape] at h1
    simp only [Except.ok.injEq, MigrateOutcome.mk.injEq,
      MigrationResult.success.injEq] at h1
    exact ⟨hok, h1.1.symm, h1.2.2.symm⟩

/-- Claim C2 — Idempotence of migrate: for every valid catalog, if one pass
succeeds (returning store `S₁` and `lastSuccessful` value `last₁`), then a
second pass over `S₁` with the same catalog — under any executor and
timestamp — executes zero migration statements, inserts zero log rows
(the store is returned unchanged), and returns success with the same
`lastSuccessful`. -/
theorem migrate_idempotent (L : List Migration)
    (exec exec' : String → Except String Unit) (now now' : Nat)
    (S S₁ : List LogEntry) (tr₁ : List String) (last₁ : Int)
    (hv : ValidCatalog L)
    (h1 : migrate L exec now S = .ok ⟨S₁, tr₁, .success last₁⟩) :
    migrate L exec' now' S₁ = .ok ⟨S₁, [], .success last₁⟩ := by
  cases hist : checkHistory L (sortByCreationOrder S) (-1) with
  | error msg =>
    rw [migrate_eq_error L exec now S msg hist] at h1
    cases h1
  | ok last0 =>
    obtain ⟨hPok, hS₁, hlast₁⟩ :=
      migrate_success_shape L exec now S S₁ tr₁ last₁ last0 hist h1
    have hsortedS := sorted_sortByCreationOrder S
    have hvalS : ∀ x ∈ S, x.successful = true → Validates L x := fun x hx hsx =>
      checkHistory_valid_of_ok L (sortByCreationOrder S) (-1) last0 hist x
        ((mem_sortByCreationOrder S x).mpr hx) hsx
    have hlast0 : last0 = histLast (sortByCreationOrder S) (-1) :=
      checkHistory_ok_val L (sortByCreationOrder S) (-1) last0 hist
    have hub_old : ∀ x ∈ S, x.successful = true → x.creationOrder ≤ last0 := by
      intro x hx hsx
      rw [hlast0]
      exact histLast_ub (sortByCreationOrder S) (-1) hsortedS x
        ((mem_sortByCreationOrder S x).mpr hx) hsx
    have hpos_old : ∀ x ∈ S, x.successful = true → 0 < x.creationOrder := by
      intro x hx hsx
      obtain ⟨mx, hfind, _⟩ := hvalS x hx hsx
      have hmem := List.mem_of_find?_eq_some hfind
      have hbeq : mx.order = x.creationOrder := by
        simpa using List.find?_some hfind
      rw [← hbeq]
      exact hv.2 mx hmem
    have hmemS₁ : ∀ x ∈ S₁, (x ∈ S ∧ x.successful = true) ∨
        ∃ m ∈ L.filter (fun m => last0 < m.order), x = successEntry now m := by
      intro x hx
      rw [hS₁] at hx
      rcases List.mem_append.mp hx with h | h
      · exact Or.inl ⟨List.mem_of_mem_filter h, by simpa using List.of_mem_filter h⟩
      · obtain ⟨m, hm, hxm⟩ := List.mem_map.mp h
        exact Or.inr ⟨m, hm, hxm.symm⟩
    have hsuccS₁ : ∀ x ∈ S₁, x.successful = true := by
      intro x hx
      rcases hmemS₁ x hx with ⟨_, hs⟩ | ⟨m, _, rfl⟩
      · exact hs
      · rfl
    have hvalS₁ : ∀ x ∈ S₁, Validates L x := by
      intro x hx
      rcases hmemS₁ x hx with ⟨hxS, hs⟩ | ⟨m, hm, rfl⟩
      · exact hvalS x hxS hs
      · exact ⟨m, find?_self_of_pairwise L hv.1 m (List.mem_of_mem_filter hm), rfl⟩
    have hposS₁ : ∀ x ∈ S₁, 0 < x.creationOrder := by
      intro x hx
      rcases hmemS₁ x hx with ⟨hxS, hs⟩ | ⟨m, hm, rfl⟩
      · exact hpos_old x hxS hs
      · exact hv.2 m (List.mem_of_mem_filter hm)
    have hpairP : List.Pairwise (fun a b => a.order < b.order)
        (L.filter (fun m => last0 < m.order)) := hv.1.filter _
    have hub_S₁ : ∀ x ∈ S₁, x.creationOrder ≤ last₁ := by
      intro x hx
      cases hgl : (L.filter (fun m => last0 < m.order)).getLast? with
      | none =>
        have hP0 : L.filter (fun m => last0 < m.order) = [] :=
          List.getLast?_eq_none_iff.mp hgl
        have hl₁ : last₁ = last0 := by rw [hlast₁, hP0, lastOrd_nil]
        rcases hmemS₁ x hx with ⟨hxS, hs⟩ | ⟨m, hm, rfl⟩
        · rw [hl₁]; exact hub_old x hxS hs
        · rw [hP0] at hm; cases hm
      | some xP =>
        have hlast₁' : last₁ = xP.order := by rw [hlast₁]; simp [lastOrd, hgl]
        have h0P : last0 < xP.order := by
          simpa using List.of_mem_filter (getLast?_mem_list _ xP hgl)
        rcases hmemS₁ x hx with ⟨hxS, hs⟩ | ⟨m, hm, rfl⟩
        · rw [hlast₁']; exact le_trans (hub_old x hxS hs) (le_of_lt h0P)
        · rw [hlast₁']
          exact pairwise_le_getLast _ hpairP m hm xP hgl
    have hmem_last₁ : last₁ = -1 ∨ ∃ x ∈ S₁, x.creationOrder = last₁ := by
      cases hgl : (L.filter (fun m => last0 < m.order)).getLast? with
      | some xP =>
        have hlast₁' : last₁ = xP.order := by rw [hlast₁]; simp [lastOrd, hgl]
        refine Or.inr ⟨successEntry now xP, ?_, hlast₁'.symm⟩
        rw [hS₁]
        exact List.mem_append.mpr (Or.inr
          (List.mem_map.mpr ⟨xP, getLast?_mem_list _ xP hgl, rfl⟩))
      | none =>
        have hP0 : L.filter (fun m => last0 < m.order) = [] :=
          List.getLast?_eq_none_iff.mp hgl
        have hl₁ : last₁ = last0 := by rw [hlast₁, hP0, lastOrd_nil]
        rcases histLast_mem (sortByCreationOrder S) (-1) with h | ⟨e, he, hse, hv'⟩
        · exact Or.inl (by rw [hl₁, hlast0, h])
        · refine Or.inr ⟨e, ?_, by rw [hl₁, hlast0, hv']⟩
          have heS : e ∈ S := (mem_sortByCreationOrder S e).mp he
          rw [hS₁, hP0]
          simp only [List.map_nil, List.append_nil]
          exact List.mem_filter.mpr ⟨heS, by simp [hse]⟩
    have hsorted₁ := sorted_sortByCreationOrder S₁
    have hchk₁ : checkHistory L (sortByCreationOrder S₁) (-1) =
        .ok (histLast (sortByCreationOrder S₁) (-1)) :=
      checkHistory_ok_of_valid L (sortByCreationOrder S₁) (-1)
        (fun x hx _ => hvalS₁ x ((mem_sortByCreationOrder S₁ x).mp hx))
    have hM_ub : ∀ x ∈ S₁, x.creationOrder ≤ histLast (sortByCreationOrder S₁) (-1) :=
      fun x hx => histLast_ub (sortByCreationOrder S₁) (-1) hsorted₁ x
        ((mem_sortByCreationOrder S₁ x).mpr hx) (hsuccS₁ x hx)
    have hM_eq : histLast (sortByCreationOrder S₁) (-1) = last₁ := by
      apply le_antisymm
      · rcases histLast_mem (sortByCreationOrder S₁) (-1) with h | ⟨e, he, _, hv'⟩
        · rw [h]
          rcases hmem_last₁ with h' | ⟨x, hx, hx'⟩
          · rw [h']
          · rw [← hx']
            exact le_of_lt (lt_trans (by norm_num) (hposS₁ x hx))
        · rw [hv']
          exact hub_S₁ e ((mem_sortByCreationOrder S₁ e).mp he)
      · rcases hmem_last₁ with h' | ⟨x, hx, hx'⟩
        · rw [h']
          rcases histLast_mem (sortByCreationOrder S₁) (-1) with h | ⟨e, he, _, hv'⟩
          · rw [h]
          · rw [hv']
            exact le_of_lt (lt_trans (by norm_num)
              (hposS₁ e ((mem_sortByCreationOrder S₁ e).mp he)))
        · rw [← hx']
          exact hM_ub x hx
    have hlast0_le : last0 ≤ last₁ := by
      cases hgl : (L.filter (fun m => last0 < m.order)).getLast? with
      | none =>
        have hP0 : L.filter (fun m => last0 < m.order) = [] :=
          List.getLast?_eq_none_iff.mp hgl
        rw [hlast₁, hP0, lastOrd_nil]
      | some xP =>
        have hlast₁' : last₁ = xP.order := by rw [hlast₁]; simp [lastOrd, hgl]
        have h0P : last0 < xP.order := by
          simpa using List.of_mem_filter (getLast?_mem_list _ xP hgl)
        rw [hlast₁']
        exact le_of_lt h0P
    have hP₂ : L.filter (fun m => last₁ < m.order) = [] := by
      rw [List.filter_eq_nil_iff]
      intro m hm
      simp only [decide_eq_true_eq, not_lt]
      by_cases hm0 : m.order ≤ last0
      · exact le_trans hm0 hlast0_le
      · have hmP : m ∈ L.filter (fun m => last0 < m.order) :=
          List.mem_filter.mpr ⟨hm, by simpa using Int.not_le.mp hm0⟩
        cases hgl : (L.filter (fun m => last0 < m.order)).getLast? with
        | none =>
          rw [List.getLast?_eq_none_iff.mp hgl] at hmP
          cases hmP
        | some xP =>
          have hmle : m.order ≤ xP.order := pairwise_le_getLast _ hpairP m hmP xP hgl
          have hlast₁' : last₁ = xP.order := by rw [hlast₁]; simp [lastOrd, hgl]
          rw [hlast₁']
          exact hmle
    have hfilter₂ : S₁.filter (fun e => e.successful) = S₁ :=
      List.filter_eq_self.mpr (fun x hx => by simpa using hsuccS₁ x hx)
    rw [migrate_eq_ok L exec' now' S₁ (histLast (sortByCreationOrder S₁) (-1)) hchk₁,
      hM_eq, hP₂, hfilter₂]
    simp [applySteps]

/-- Witness for C2: a one-step catalog applied to an empty store, then
re-applied to the resulting store. -/
theorem migrate_idempotent_witness :
    migrate ([⟨1, "M1", "q1"⟩] : List Migration) (fun _ => .error "off") 8
        [successEntry 5 ⟨1, "M1", "q1"⟩] =
      .ok ⟨[successEntry 5 ⟨1, "M1", "q1"⟩], [], .success 1⟩ :=
  migrate_idempotent ([⟨1, "M1", "q1"⟩] : List Migration)
    (fun _ => .ok ()) (fun _ => .error "off") 5 8 []
    [successEntry 5 ⟨1, "M1", "q1"⟩] ["q1"] 1
    ⟨by simp [List.pairwise_cons], by decide⟩ (by rfl)
